import Mathlib

/-!
Verification of the motion-detector repository's rectangle pipeline against
its specification.  The embedding covers `src/utils.py` (rect_dist,
MovingAverage, SmoothRect, RectMatcher), `src/motion_detector.py`
(fixup_rect, rect_diagonal, bounding_rect, merge_rects,
motion_detection_process) and `src/pipeline.py` (PipelineStep.output).

Numeric conventions.  Rectangle coordinates are integers (they come from
`cv2.boundingRect` and `round`).  Python float arithmetic (center
distances, diagonal lengths, moving averages) is modelled by exact
integer/rational arithmetic: a comparison `sqrt x < sqrt y` of nonnegative
quantities is modelled by `x < y` on the squares, and center coordinates
`(x1+x2)/2` are scaled by 2 so that squared center distances stay integral
(scaled by 4).  Python's builtin `round` is round-half-to-even, modelled by
`pyRound` on rationals.
-/

/-- A rectangle `(x1, y1, x2, y2)`, the 4-tuples used throughout the code. -/
structure Rect where
  x1 : ℤ
  y1 : ℤ
  x2 : ℤ
  y2 : ℤ
deriving DecidableEq

/-- Well-formedness of a rectangle per the spec's data model:
`x1 ≤ x2` and `y1 ≤ y2`. -/
def Rect.WF (r : Rect) : Prop := r.x1 ≤ r.x2 ∧ r.y1 ≤ r.y2

instance (r : Rect) : Decidable r.WF := by
  unfold Rect.WF
  infer_instance

/-- Python's builtin `round`: round half to even (banker's rounding). -/
def pyRound (q : ℚ) : ℤ :=
  if q - (⌊q⌋ : ℚ) < 1/2 then ⌊q⌋
  else if 1/2 < q - (⌊q⌋ : ℚ) then ⌊q⌋ + 1
  else if ⌊q⌋ % 2 = 0 then ⌊q⌋ else ⌊q⌋ + 1

lemma le_pyRound (q : ℚ) : q - 1/2 ≤ (pyRound q : ℚ) := by
  have h1 : ((⌊q⌋ : ℤ) : ℚ) ≤ q := Int.floor_le q
  have h2 : q < ((⌊q⌋ : ℤ) : ℚ) + 1 := Int.lt_floor_add_one q
  unfold pyRound
  split_ifs <;> push_cast <;> linarith

lemma pyRound_le (q : ℚ) : (pyRound q : ℚ) ≤ q + 1/2 := by
  have h1 : ((⌊q⌋ : ℤ) : ℚ) ≤ q := Int.floor_le q
  have h2 : q < ((⌊q⌋ : ℤ) : ℚ) + 1 := Int.lt_floor_add_one q
  unfold pyRound
  split_ifs <;> push_cast <;> linarith

lemma pyRound_mono {a b : ℚ} (h : a ≤ b) : pyRound a ≤ pyRound b := by
  by_contra hc
  push_neg at hc
  have h1 : (pyRound b : ℚ) + 1 ≤ (pyRound a : ℚ) := by
    exact_mod_cast Int.add_one_le_iff.mpr hc
  have h2 := le_pyRound b
  have h3 := pyRound_le a
  have hba : b ≤ a := by linarith
  have hab : a = b := le_antisymm h hba
  subst hab
  exact absurd hc (lt_irrefl _)

/-- Model of `rect_dist` (utils.py lines 84-104).  The Python function
returns the Euclidean distance between rectangle centers `((x1+x2)/2,
(y1+y2)/2)`; we return 4 times its square, which is an integer, so that
every comparison the code performs on `rect_dist` values can be carried
out exactly (`sqrt` is strictly monotone on nonnegative reals). -/
def rect_dist_sq4 (r1 r2 : Rect) : ℤ :=
  (r1.x1 + r1.x2 - (r2.x1 + r2.x2))^2 + (r1.y1 + r1.y2 - (r2.y1 + r2.y2))^2

/-- Model of `rect_diagonal` (motion_detector.py lines 58-70): the Python
function returns `sqrt((x2-x1)^2 + (y2-y1)^2)`; we return its square. -/
def rect_diagonal_sq (r : Rect) : ℤ := (r.x2 - r.x1)^2 + (r.y2 - r.y1)^2

/-- The merge test of motion_detector.py lines 108-109:
`rect_dist(a, b) < max(rect_diagonal(a), rect_diagonal(b))`.  Both sides
are nonnegative reals, so the comparison equals the comparison of the
squares; scaling the center distance by 2 scales its square by 4. -/
def mergeClose (a b : Rect) : Bool :=
  decide (rect_dist_sq4 a b < 4 * max (rect_diagonal_sq a) (rect_diagonal_sq b))

/-- Model of `bounding_rect` (motion_detector.py lines 72-87):
componentwise min/max over the list.  Python's `min`/`max` raise on an
empty list, hence the `Option`. -/
def bounding_rect : List Rect → Option Rect
  | [] => none
  | r :: rs =>
      some ⟨rs.foldl (fun m x => min m x.x1) r.x1,
            rs.foldl (fun m x => min m x.y1) r.y1,
            rs.foldl (fun m x => max m x.x2) r.x2,
            rs.foldl (fun m x => max m x.y2) r.y2⟩

/-- The two-element union used at motion_detector.py line 110. -/
def rectUnion (a b : Rect) : Rect :=
  ⟨min a.x1 b.x1, min a.y1 b.y1, max a.x2 b.x2, max a.y2 b.y2⟩

lemma bounding_rect_pair (a b : Rect) : bounding_rect [a, b] = some (rectUnion a b) := by
  simp [bounding_rect, rectUnion]

/-- One execution of the inner `for` loop of `merge_rects`
(motion_detector.py lines 107-113).  `i` ranges over
`range(len(rects) - 2)`, i.e. `i = 0 .. len-3`: the pair `(rects[i],
rects[i+1])` is examined only when at least one further element follows,
so the last adjacent pair of the list is never examined.  The loop merges
the first qualifying pair (`rects[i] = bounding_rect([rects[i],
rects[i+1]]); rects.pop(i+1)`) and breaks; `none` means the pass performed
no merge.  `rectUnion a b` is `bounding_rect [a, b]`
(lemma `bounding_rect_pair`). -/
def mergePass : List Rect → Option (List Rect)
  | a :: b :: c :: rest =>
      if mergeClose a b then some (rectUnion a b :: c :: rest)
      else
        match mergePass (b :: c :: rest) with
        | some l => some (a :: l)
        | none => none
  | _ => none

/-- The `while did_merge` loop of `merge_rects` (lines 104-113), with
explicit fuel counting loop iterations.  Each merge removes one rectangle,
so `length + 1` iterations always suffice; `merge_loop_eq_of_lt` proves
the result is independent of any sufficient fuel. -/
def merge_loop : ℕ → List Rect → List Rect
  | 0, l => l
  | fuel + 1, l =>
      match mergePass l with
      | some l' => merge_loop fuel l'
      | none => l

/-- Model of `merge_rects` (motion_detector.py lines 89-114).  The initial
`rects.sort(key=cmp_to_key(lambda a, b: rect_dist(a, b)))` is a no-op:
`rect_dist` is nonnegative, so the comparator never returns a negative
value, hence the `__lt__` of the wrapped keys never holds; CPython's
timsort invokes only `<` on keys, its run detector therefore finds the
whole list to be one single non-descending run, and the list is returned
unchanged.  The sort is accordingly modelled as the identity, leaving the
fixed-point merge loop. -/
def merge_rects (rects : List Rect) : List Rect :=
  merge_loop (rects.length + 1) rects

lemma mergePass_length (l : List Rect) :
    ∀ l', mergePass l = some l' → l'.length + 1 = l.length := by
  induction l with
  | nil => intro l' h; simp [mergePass] at h
  | cons a t ih =>
    intro l' h
    cases t with
    | nil => simp [mergePass] at h
    | cons b t2 =>
      cases t2 with
      | nil => simp [mergePass] at h
      | cons c rest =>
        simp only [mergePass] at h
        split_ifs at h with hm
        · cases h
          simp
        · rcases hr : mergePass (b :: c :: rest) with _ | l2
          · rw [hr] at h; cases h
          · rw [hr] at h
            cases h
            have := ih l2 hr
            simpa using this

lemma merge_loop_eq_of_lt :
    ∀ (f1 f2 : ℕ) (l : List Rect), l.length < f1 → l.length < f2 →
      merge_loop f1 l = merge_loop f2 l := by
  intro f1
  induction f1 with
  | zero => intro f2 l h1 h2; omega
  | succ n ih =>
    intro f2 l h1 h2
    cases f2 with
    | zero => omega
    | succ m =>
      simp only [merge_loop]
      rcases hm : mergePass l with _ | l'
      · rfl
      · have hl := mergePass_length l l' hm
        exact ih m l' (by omega) (by omega)

lemma mergePass_merge_loop :
    ∀ (fuel : ℕ) (l : List Rect), l.length < fuel →
      mergePass (merge_loop fuel l) = none := by
  intro fuel
  induction fuel with
  | zero => intro l h; omega
  | succ n ih =>
    intro l h
    simp only [merge_loop]
    rcases hm : mergePass l with _ | l'
    · exact hm
    · have hl := mergePass_length l l' hm
      exact ih l' (by omega)

lemma mergePass_merge_rects (l : List Rect) : mergePass (merge_rects l) = none :=
  mergePass_merge_loop (l.length + 1) l (by omega)

/-- Claim C1 (code_bug evidence): run `merge_rects` on two identical
rectangles.  Their center distance (0) is smaller than their common
diagonal, so the claim requires them to be merged into one rectangle, but
the inner loop iterates `range(len(rects) - 2)`, which is empty for a
two-element list, so the code returns both rectangles unchanged. -/
theorem merge_rects_misses_last_pair :
    merge_rects [Rect.mk 0 0 10 10, Rect.mk 0 0 10 10]
        = [Rect.mk 0 0 10 10, Rect.mk 0 0 10 10] ∧
      mergeClose (Rect.mk 0 0 10 10) (Rect.mk 0 0 10 10) = true := by
  constructor
  · rfl
  · decide

/-- Claim C2: `merge_rects` is idempotent — applying it to its own output
returns the output unchanged, because the output is a fixed point of the
merge pass (and the initial sort is a no-op, see `merge_rects`). -/
theorem merge_rects_idempotent (l : List Rect) :
    merge_rects (merge_rects l) = merge_rects l := by
  have h := mergePass_merge_rects l
  show merge_loop ((merge_rects l).length + 1) (merge_rects l) = merge_rects l
  simp only [merge_loop]
  rw [h]

/-- Claim C5 (counterexample): the Python function sorts, rewrites and
pops its argument list in place and returns that same list object, so the
caller's list after the call holds the value `merge_rects l`.  The claim
asserts the caller's list is left unchanged, i.e. `merge_rects l = l` for
every `l`; three identical rectangles refute it (two of them merge, the
list shrinks from three elements to two). -/
theorem merge_rects_mutates_input :
    merge_rects [Rect.mk 0 0 10 10, Rect.mk 0 0 10 10, Rect.mk 0 0 10 10]
      ≠ [Rect.mk 0 0 10 10, Rect.mk 0 0 10 10, Rect.mk 0 0 10 10] := by
  decide

/-- Claim C5 (amended): `merge_rects` is deterministic given the input
order — equal input lists produce equal result lists (the function is a
pure function of the input list value; the in-place mutation means the
caller's list afterwards equals the returned value, not its old value). -/
theorem merge_rects_deterministic (l1 l2 : List Rect) (h : l1 = l2) :
    merge_rects l1 = merge_rects l2 := by
  rw [h]

theorem merge_rects_deterministic_witness :
    merge_rects [Rect.mk 0 0 1 1] = merge_rects [Rect.mk 0 0 1 1] :=
  merge_rects_deterministic [Rect.mk 0 0 1 1] [Rect.mk 0 0 1 1] rfl

/-- Claim C6: the fixed-point iteration of `merge_rects` is well-founded:
every executed merge strictly reduces the rectangle count by one, and once
a full pass performs no merge the loop exits, so any fuel beyond the
initial length yields the same result — the loop terminates, and the
returned list is a fixed point of the merge pass. -/
theorem merge_rects_terminating (l : List Rect) (fuel : ℕ) (h : l.length < fuel) :
    (∀ l', mergePass l = some l' → l'.length + 1 = l.length) ∧
      merge_loop fuel l = merge_rects l ∧
        mergePass (merge_rects l) = none := by
  refine ⟨mergePass_length l, ?_, mergePass_merge_rects l⟩
  exact merge_loop_eq_of_lt fuel (l.length + 1) l h (by omega)

theorem merge_rects_terminating_witness :
    merge_loop 7 [Rect.mk 0 0 10 10, Rect.mk 0 0 10 10, Rect.mk 0 0 10 10]
      = merge_rects [Rect.mk 0 0 10 10, Rect.mk 0 0 10 10, Rect.mk 0 0 10 10] :=
  (merge_rects_terminating
    [Rect.mk 0 0 10 10, Rect.mk 0 0 10 10, Rect.mk 0 0 10 10] 7 (by decide)).2.1

/-- Model of `fixup_rect` (motion_detector.py lines 38-56): scale an
`(x, y, w, h)` rectangle by `scaleFactor` and convert to
`(x1, y1, x2, y2)`, rounding each coordinate. -/
def fixup_rect (x y w h : ℤ) (scaleFactor : ℚ) : Rect :=
  ⟨pyRound (x * scaleFactor),
   pyRound (y * scaleFactor),
   pyRound ((x + w) * scaleFactor),
   pyRound ((y + h) * scaleFactor)⟩

/-- Model of `MovingAverage` (utils.py lines 8-44): the window size and
the list of the most recent values. -/
structure MovingAverage where
  window_size : ℕ
  values : List ℚ
deriving DecidableEq, Inhabited

/-- Model of `MovingAverage.add` (lines 25-36): append the value, then `pop(0)` the
oldest value when the window has overflowed. -/
def MovingAverage.add (m : MovingAverage) (v : ℚ) : MovingAverage :=
  let vs := m.values ++ [v]
  ⟨m.window_size, if m.window_size < vs.length then vs.tail else vs⟩

/-- Model of `MovingAverage.average` (lines 38-44): 0 for an empty window, else the
arithmetic mean. -/
def MovingAverage.average (m : MovingAverage) : ℚ :=
  if m.values.length = 0 then 0 else m.values.sum / m.values.length

/-- Model of `SmoothRect` (utils.py lines 46-82): four per-coordinate
moving averages. -/
structure SmoothRect where
  x1 : MovingAverage
  y1 : MovingAverage
  x2 : MovingAverage
  y2 : MovingAverage
deriving DecidableEq, Inhabited

/-- Model of `SmoothRect.update` (lines 62-71): push each coordinate into its
moving average. -/
def SmoothRect.update (sr : SmoothRect) (r : Rect) : SmoothRect :=
  ⟨sr.x1.add r.x1, sr.y1.add r.y1, sr.x2.add r.x2, sr.y2.add r.y2⟩

/-- Model of `SmoothRect.__init__` (lines 54-60): four empty windows of the given
size, then one `update` with the seed rectangle. -/
def SmoothRect.init (r : Rect) (window_size : ℕ) : SmoothRect :=
  SmoothRect.update ⟨⟨window_size, []⟩, ⟨window_size, []⟩, ⟨window_size, []⟩, ⟨window_size, []⟩⟩ r

/-- Model of `SmoothRect.rect` (lines 73-82): the rounded averages. -/
def SmoothRect.rect (sr : SmoothRect) : Rect :=
  ⟨pyRound sr.x1.average, pyRound sr.y1.average,
   pyRound sr.x2.average, pyRound sr.y2.average⟩

/-- The smoothing history of a `SmoothRect` fed only well-formed
rectangles: the x1 window is pointwise below the x2 window and likewise
for y (the windows then automatically have equal lengths). -/
def SmoothRect.WF (sr : SmoothRect) : Prop :=
  List.Forall₂ (· ≤ ·) sr.x1.values sr.x2.values ∧
    List.Forall₂ (· ≤ ·) sr.y1.values sr.y2.values

/-- The matching test of utils.py line 131:
`rect_dist(new_rect, r.rect()) < self.dist`.  For a nonnegative threshold
`d` the comparison of the Euclidean distance with `d` equals the
comparison of 4 times the squared distance with `4·d²`; a negative
threshold can never exceed a distance. -/
def rect_dist_lt (r1 r2 : Rect) (d : ℚ) : Bool :=
  decide (0 ≤ d ∧ ((rect_dist_sq4 r1 r2 : ℤ) : ℚ) < 4 * (d * d))

/-- The inner `for r in self.smoothRects` loop of `RectMatcher.set`
(utils.py lines 130-135): return the index of the first tracked entity
whose current smoothed rectangle's center is strictly within `d` of the
new rectangle's center, scanning in list order and stopping at the first
hit (`break`). -/
def findMatch (d : ℚ) : List SmoothRect → Rect → Option ℕ
  | [], _ => none
  | e :: rest, r =>
      if rect_dist_lt r e.rect d then some 0
      else (findMatch d rest r).map (· + 1)

/-- Model of `RectMatcher` (utils.py lines 106-146): the list of tracked
entities and the matching threshold (default 10). -/
structure RectMatcher where
  smoothRects : List SmoothRect
  dist : ℚ

/-- The body of `RectMatcher.set` (utils.py lines 117-138), with Python's
object aliasing made explicit.  The first component threads the current
states of the pre-existing entities (`self.smoothRects`; `r.update(...)`
mutates the object in place, so later iterations see the updated state).
The second component is `new_smoothRects` as a list of references:
`Sum.inl i` is the object `self.smoothRects[i]` (appended after a match —
the object is not removed from the candidate list, so the same entity may
be referenced several times), and `Sum.inr sr` is a freshly constructed
`SmoothRect(new_rect)` with the default window size 30.  Fresh entities
are never candidates for matching because the inner loop only scans
`self.smoothRects`. -/
def setGo (d : ℚ) : List SmoothRect → List Rect → List SmoothRect × List (ℕ ⊕ SmoothRect)
  | old, [] => (old, [])
  | old, r :: rs =>
      match findMatch d old r with
      | some i =>
          ((setGo d (old.set i ((old.getD i default).update r)) rs).1,
            Sum.inl i :: (setGo d (old.set i ((old.getD i default).update r)) rs).2)
      | none =>
          ((setGo d old rs).1, Sum.inr (SmoothRect.init r 30) :: (setGo d old rs).2)

/-- Model of `RectMatcher.set`: run the loop, then `self.smoothRects =
new_smoothRects`, resolving each reference against the final entity
states (a matched object appended earlier shows its final state, since the
list holds the object itself). -/
def RectMatcher.set (m : RectMatcher) (rects : List Rect) : RectMatcher :=
  ⟨(setGo m.dist m.smoothRects rects).2.map
      (fun e =>
        match e with
        | Sum.inl i => (setGo m.dist m.smoothRects rects).1.getD i default
        | Sum.inr sr => sr),
    m.dist⟩

/-- Model of `RectMatcher.rects` (utils.py lines 140-146). -/
def RectMatcher.rects (m : RectMatcher) : List Rect :=
  m.smoothRects.map SmoothRect.rect

lemma foldl_min_le (g : Rect → ℤ) :
    ∀ (l : List Rect) (a : ℤ),
      l.foldl (fun m x => min m (g x)) a ≤ a ∧
        ∀ r ∈ l, l.foldl (fun m x => min m (g x)) a ≤ g r := by
  intro l
  induction l with
  | nil => intro a; simp
  | cons x t ih =>
    intro a
    have h := ih (min a (g x))
    refine ⟨le_trans h.1 (min_le_left _ _), ?_⟩
    intro r hr
    rcases List.mem_cons.mp hr with h1 | h1
    · subst h1
      exact le_trans h.1 (min_le_right _ _)
    · exact h.2 r h1

lemma le_foldl_max (g : Rect → ℤ) :
    ∀ (l : List Rect) (a : ℤ),
      a ≤ l.foldl (fun m x => max m (g x)) a ∧
        ∀ r ∈ l, g r ≤ l.foldl (fun m x => max m (g x)) a := by
  intro l
  induction l with
  | nil => intro a; simp
  | cons x t ih =>
    intro a
    have h := ih (max a (g x))
    refine ⟨le_trans (le_max_left _ _) h.1, ?_⟩
    intro r hr
    rcases List.mem_cons.mp hr with h1 | h1
    · subst h1
      exact le_trans (le_max_right _ _) h.1
    · exact h.2 r h1

lemma bounding_rect_contains_aux {rects : List Rect} {res : Rect}
    (h : bounding_rect rects = some res) :
    ∀ r ∈ rects, res.x1 ≤ r.x1 ∧ res.y1 ≤ r.y1 ∧ r.x2 ≤ res.x2 ∧ r.y2 ≤ res.y2 := by
  cases rects with
  | nil => simp [bounding_rect] at h
  | cons hd tl =>
    rw [bounding_rect] at h
    cases h
    intro r hr
    rcases List.mem_cons.mp hr with h1 | h1
    · subst h1
      exact ⟨(foldl_min_le (fun r => r.x1) tl r.x1).1,
             (foldl_min_le (fun r => r.y1) tl r.y1).1,
             (le_foldl_max (fun r => r.x2) tl r.x2).1,
             (le_foldl_max (fun r => r.y2) tl r.y2).1⟩
    · exact ⟨(foldl_min_le (fun r => r.x1) tl hd.x1).2 r h1,
             (foldl_min_le (fun r => r.y1) tl hd.y1).2 r h1,
             (le_foldl_max (fun r => r.x2) tl hd.x2).2 r h1,
             (le_foldl_max (fun r => r.y2) tl hd.y2).2 r h1⟩

/-- Claim C7: `bounding_rect` of a non-empty list contains every member
rectangle componentwise. -/
theorem bounding_rect_contains (rects : List Rect) (res : Rect)
    (h : bounding_rect rects = some res) (r : Rect) (hr : r ∈ rects) :
    res.x1 ≤ r.x1 ∧ res.y1 ≤ r.y1 ∧ r.x2 ≤ res.x2 ∧ r.y2 ≤ res.y2 :=
  bounding_rect_contains_aux h r hr

theorem bounding_rect_contains_witness :
    (Rect.mk 0 0 3 3).x1 ≤ (Rect.mk 0 0 1 1).x1 ∧
      (Rect.mk 0 0 3 3).y1 ≤ (Rect.mk 0 0 1 1).y1 ∧
        (Rect.mk 0 0 1 1).x2 ≤ (Rect.mk 0 0 3 3).x2 ∧
          (Rect.mk 0 0 1 1).y2 ≤ (Rect.mk 0 0 3 3).y2 :=
  bounding_rect_contains [Rect.mk 0 0 1 1, Rect.mk 2 2 3 3] (Rect.mk 0 0 3 3)
    (by decide) (Rect.mk 0 0 1 1) (by decide)

lemma rectUnion_WF {a b : Rect} (ha : a.WF) (_hb : b.WF) : (rectUnion a b).WF := by
  constructor
  · exact le_trans (min_le_left _ _) (le_trans ha.1 (le_max_left _ _))
  · exact le_trans (min_le_left _ _) (le_trans ha.2 (le_max_left _ _))

lemma mergePass_WF (l : List Rect) :
    ∀ l', (∀ r ∈ l, r.WF) → mergePass l = some l' → ∀ r ∈ l', r.WF := by
  induction l with
  | nil => intro l' _ h; simp [mergePass] at h
  | cons a t ih =>
    intro l' hwf h
    cases t with
    | nil => simp [mergePass] at h
    | cons b t2 =>
      cases t2 with
      | nil => simp [mergePass] at h
      | cons c rest =>
        simp only [mergePass] at h
        split_ifs at h with hm
        · cases h
          intro r hr
          rcases List.mem_cons.mp hr with h1 | h1
          · subst h1
            exact rectUnion_WF (hwf a (by simp)) (hwf b (by simp))
          · exact hwf r (by simp [h1])
        · rcases hr : mergePass (b :: c :: rest) with _ | l2
          · rw [hr] at h; cases h
          · rw [hr] at h
            cases h
            intro r hrm
            rcases List.mem_cons.mp hrm with h1 | h1
            · rw [h1]
              exact hwf a (by simp)
            · exact ih l2 (fun x hx => hwf x (List.mem_cons_of_mem a hx)) hr r h1

lemma merge_loop_WF :
    ∀ (fuel : ℕ) (l : List Rect), (∀ r ∈ l, r.WF) → ∀ r ∈ merge_loop fuel l, r.WF := by
  intro fuel
  induction fuel with
  | zero => intro l h; exact h
  | succ n ih =>
    intro l h
    simp only [merge_loop]
    rcases hm : mergePass l with _ | l'
    · exact h
    · exact ih l' (mergePass_WF l l' h hm)

lemma sum_le_sum_forall2 {l1 l2 : List ℚ} (h : List.Forall₂ (· ≤ ·) l1 l2) :
    l1.sum ≤ l2.sum := by
  induction h with
  | nil => simp
  | cons hab _ ih =>
    simp only [List.sum_cons]
    exact add_le_add hab ih

lemma average_le_average {m1 m2 : MovingAverage}
    (h : List.Forall₂ (· ≤ ·) m1.values m2.values) : m1.average ≤ m2.average := by
  have hlen : m1.values.length = m2.values.length := h.length_eq
  unfold MovingAverage.average
  rcases Nat.eq_zero_or_pos m2.values.length with h0 | h0
  · rw [hlen, h0]
    simp
  · rw [if_neg (by omega), if_neg (by omega), hlen]
    have hc : (0 : ℚ) < m2.values.length := by exact_mod_cast h0
    exact (div_le_div_iff_of_pos_right hc).mpr (sum_le_sum_forall2 h)

/-- Claim C8: every rectangle-producing operation preserves
well-formedness (`x1 ≤ x2 ∧ y1 ≤ y2`): `fixup_rect` under a positive
scale factor and nonnegative width/height, `bounding_rect` on any
non-empty list of well-formed rectangles, `merge_rects` on well-formed
inputs, and `SmoothRect.rect` on a well-formed smoothing history. -/
theorem rect_wf_preserved :
    (∀ (x y w h : ℤ) (s : ℚ), 0 < s → 0 ≤ w → 0 ≤ h → (fixup_rect x y w h s).WF) ∧
      (∀ (rects : List Rect) (res : Rect),
        (∀ r ∈ rects, r.WF) → bounding_rect rects = some res → res.WF) ∧
      (∀ l : List Rect, (∀ r ∈ l, r.WF) → ∀ r ∈ merge_rects l, r.WF) ∧
      (∀ sr : SmoothRect, sr.WF → sr.rect.WF) := by
  refine ⟨?_, ?_, ?_, ?_⟩
  · intro x y w h s hs hw hh
    have hw' : (0 : ℚ) ≤ (w : ℚ) := by exact_mod_cast hw
    have hh' : (0 : ℚ) ≤ (h : ℚ) := by exact_mod_cast hh
    constructor
    · apply pyRound_mono
      have hx : ((x : ℚ)) ≤ (x : ℚ) + (w : ℚ) := by linarith
      exact mul_le_mul_of_nonneg_right hx hs.le
    · apply pyRound_mono
      have hy : ((y : ℚ)) ≤ (y : ℚ) + (h : ℚ) := by linarith
      exact mul_le_mul_of_nonneg_right hy hs.le
  · intro rects res hwf h
    cases rects with
    | nil => simp [bounding_rect] at h
    | cons hd tl =>
      have hc := bounding_rect_contains_aux h hd (by simp)
      have hh := hwf hd (by simp)
      exact ⟨le_trans hc.1 (le_trans hh.1 hc.2.2.1),
             le_trans hc.2.1 (le_trans hh.2 hc.2.2.2)⟩
  · intro l hwf
    exact merge_loop_WF (l.length + 1) l hwf
  · intro sr hsr
    constructor
    · exact pyRound_mono (average_le_average hsr.1)
    · exact pyRound_mono (average_le_average hsr.2)

theorem rect_wf_preserved_witness : (fixup_rect 0 0 4 6 (1/2)).WF :=
  rect_wf_preserved.1 0 0 4 6 (1/2) (by norm_num) (by decide) (by decide)

lemma findMatch_spec (d : ℚ) :
    ∀ (old : List SmoothRect) (r : Rect) (i : ℕ),
      findMatch d old r = some i ↔
        (i < old.length ∧ rect_dist_lt r ((old.getD i default).rect) d = true ∧
          ∀ j, j < i → rect_dist_lt r ((old.getD j default).rect) d = false) := by
  intro old
  induction old with
  | nil =>
    intro r i
    simp [findMatch]
  | cons e rest ih =>
    intro r i
    by_cases hc : rect_dist_lt r e.rect d = true
    · simp only [findMatch, if_pos hc]
      cases i with
      | zero =>
        simp only [List.getD_cons_zero]
        constructor
        · intro _
          exact ⟨by simp, hc, fun j hj => absurd hj (Nat.not_lt_zero j)⟩
        · intro _
          trivial
      | succ k =>
        constructor
        · intro h
          cases h
        · rintro ⟨_, _, hall⟩
          have h0 := hall 0 (Nat.succ_pos k)
          rw [List.getD_cons_zero, hc] at h0
          cases h0
    · have hcf : rect_dist_lt r e.rect d = false := by
        rwa [Bool.not_eq_true] at hc
      simp only [findMatch, if_neg hc]
      cases i with
      | zero =>
        constructor
        · intro h
          rcases Option.map_eq_some'.mp h with ⟨a, _, ha⟩
          omega
        · rintro ⟨_, h2, _⟩
          rw [List.getD_cons_zero, hcf] at h2
          cases h2
      | succ k =>
        have hmap : (findMatch d rest r).map (· + 1) = some (k + 1) ↔
            findMatch d rest r = some k := by
          cases hfm : findMatch d rest r with
          | none => simp
          | some a => simp
        rw [hmap, ih r k]
        constructor
        · rintro ⟨hlen, hcond, hall⟩
          refine ⟨by simp; omega, by simpa using hcond, ?_⟩
          intro j hj
          cases j with
          | zero =>
            rw [List.getD_cons_zero]
            exact hcf
          | succ j2 =>
            rw [List.getD_cons_succ]
            exact hall j2 (by omega)
        · rintro ⟨hlen, hcond, hall⟩
          refine ⟨by simp at hlen; omega, by simpa using hcond, ?_⟩
          intro j hj
          have := hall (j + 1) (by omega)
          rwa [List.getD_cons_succ] at this

lemma setGo_snd_length (d : ℚ) :
    ∀ (rects : List Rect) (old : List SmoothRect),
      (setGo d old rects).2.length = rects.length := by
  intro rects
  induction rects with
  | nil => intro old; simp [setGo]
  | cons r rs ih =>
    intro old
    rcases hf : findMatch d old r with _ | i
    · simp [setGo, hf, ih]
    · simp [setGo, hf, ih]

lemma setGo_mem (d : ℚ) :
    ∀ (rects : List Rect) (old : List SmoothRect) (e : ℕ ⊕ SmoothRect),
      e ∈ (setGo d old rects).2 →
        (∃ i, e = Sum.inl i ∧ i < old.length) ∨
          (∃ r, r ∈ rects ∧ e = Sum.inr (SmoothRect.init r 30)) := by
  intro rects
  induction rects with
  | nil =>
    intro old e he
    simp [setGo] at he
  | cons r rs ih =>
    intro old e he
    rcases hf : findMatch d old r with _ | i
    · simp only [setGo, hf] at he
      rcases List.mem_cons.mp he with h1 | h1
      · exact Or.inr ⟨r, by simp, h1⟩
      · rcases ih old e h1 with h2 | ⟨r2, hr2, he2⟩
        · exact Or.inl h2
        · exact Or.inr ⟨r2, List.mem_cons_of_mem r hr2, he2⟩
    · simp only [setGo, hf] at he
      rcases List.mem_cons.mp he with h1 | h1
      · refine Or.inl ⟨i, h1, ?_⟩
        exact ((findMatch_spec d old r i).mp hf).1
      · rcases ih (old.set i ((old.getD i default).update r)) e h1 with ⟨j, hj, hjl⟩ | ⟨r2, hr2, he2⟩
        · rw [List.length_set] at hjl
          exact Or.inl ⟨j, hj, hjl⟩
        · exact Or.inr ⟨r2, List.mem_cons_of_mem r hr2, he2⟩

/-- Claim C3: the behavior of `RectMatcher.set`.  (i) The inner scan
attaches a new rectangle to the first tracked entity, in internal list
order, whose current smoothed rectangle's center is strictly within the
threshold of the new rectangle's center.  (ii) On a match, the matched
entity is updated in place and a reference to it is appended to the new
tracked list.  (iii) When no entity is within the threshold, a fresh
entity seeded with the rectangle (window size 30) is appended.  (iv) With
no input rectangles, every previously tracked entity is dropped (no grace
period).  (v) Every entry of the new tracked list is either a reference
to an existing entity that some input rectangle matched, or a fresh
entity seeded from one of the input rectangles — an entity matched by no
input rectangle this frame is absent from the tracked set. -/
theorem rectMatcher_set_behavior :
    (∀ (d : ℚ) (old : List SmoothRect) (r : Rect) (i : ℕ),
      findMatch d old r = some i ↔
        (i < old.length ∧ rect_dist_lt r ((old.getD i default).rect) d = true ∧
          ∀ j, j < i → rect_dist_lt r ((old.getD j default).rect) d = false)) ∧
    (∀ (d : ℚ) (old : List SmoothRect) (r : Rect) (rs : List Rect) (i : ℕ),
      findMatch d old r = some i →
        setGo d old (r :: rs) =
          ((setGo d (old.set i ((old.getD i default).update r)) rs).1,
            Sum.inl i :: (setGo d (old.set i ((old.getD i default).update r)) rs).2)) ∧
    (∀ (d : ℚ) (old : List SmoothRect) (r : Rect) (rs : List Rect),
      findMatch d old r = none →
        setGo d old (r :: rs) =
          ((setGo d old rs).1, Sum.inr (SmoothRect.init r 30) :: (setGo d old rs).2)) ∧
    (∀ m : RectMatcher, (m.set []).smoothRects = []) ∧
    (∀ (d : ℚ) (rects : List Rect) (old : List SmoothRect) (e : ℕ ⊕ SmoothRect),
      e ∈ (setGo d old rects).2 →
        (∃ i, e = Sum.inl i ∧ i < old.length) ∨
          (∃ r, r ∈ rects ∧ e = Sum.inr (SmoothRect.init r 30))) := by
  refine ⟨findMatch_spec, ?_, ?_, ?_, setGo_mem⟩
  · intro d old r rs i h
    simp only [setGo, h]
  · intro d old r rs h
    simp only [setGo, h]
  · intro m
    simp [RectMatcher.set, setGo]

theorem rectMatcher_set_behavior_witness :
    setGo 10 [] [Rect.mk 1 1 2 2] =
      ((setGo 10 [] []).1,
        Sum.inr (SmoothRect.init (Rect.mk 1 1 2 2) 30) :: (setGo 10 [] []).2) :=
  rectMatcher_set_behavior.2.2.1 10 [] (Rect.mk 1 1 2 2) [] rfl

/-- Claim C10: `RectMatcher.set(rects)` always leaves exactly
`rects.length` tracked entries, and `RectMatcher.rects` then returns
exactly that many smoothed rectangles — one entry per input rectangle,
matched or fresh.  A matched entity is not removed from the candidate
list during the scan, so when two inputs of one frame both fall within
the threshold of the same entity, both update it and the entity appears
twice: starting from one entity seeded with (0,0,0,0), the inputs
(0,0,2,2) and (0,0,4,4) both match it (its smoothed center moves between
the two scans but stays within 10 px of both), the final tracked list
holds that entity twice, and both output rectangles are its final
smoothed rectangle (0,0,2,2). -/
theorem rectMatcher_set_size :
    (∀ (m : RectMatcher) (rects : List Rect),
      (m.set rects).smoothRects.length = rects.length ∧
        (RectMatcher.rects (m.set rects)).length = rects.length) ∧
    ((RectMatcher.mk [SmoothRect.init (Rect.mk 0 0 0 0) 30] 10).set
        [Rect.mk 0 0 2 2, Rect.mk 0 0 4 4]).smoothRects.getD 0 default =
      ((RectMatcher.mk [SmoothRect.init (Rect.mk 0 0 0 0) 30] 10).set
        [Rect.mk 0 0 2 2, Rect.mk 0 0 4 4]).smoothRects.getD 1 default ∧
    RectMatcher.rects
        ((RectMatcher.mk [SmoothRect.init (Rect.mk 0 0 0 0) 30] 10).set
          [Rect.mk 0 0 2 2, Rect.mk 0 0 4 4]) =
      [Rect.mk 0 0 2 2, Rect.mk 0 0 2 2] := by
  refine ⟨?_, ?_, ?_⟩
  · intro m rects
    constructor
    · simp [RectMatcher.set, setGo_snd_length]
    · simp [RectMatcher.set, RectMatcher.rects, setGo_snd_length]
  · norm_num [RectMatcher.set, setGo, findMatch, rect_dist_lt,
      SmoothRect.init, SmoothRect.update, SmoothRect.rect, MovingAverage.add,
      MovingAverage.average, rect_dist_sq4, pyRound]
  · norm_num [RectMatcher.set, RectMatcher.rects, setGo, findMatch, rect_dist_lt,
      SmoothRect.init, SmoothRect.update, SmoothRect.rect, MovingAverage.add,
      MovingAverage.average, rect_dist_sq4, pyRound, Rect.mk.injEq]

/-- The motion-detection context of `motion_detection_ctx`
(motion_detector.py lines 13-36): the background model (None until the
first frame) and the minimum contour area.  The image type is left as a
parameter since its contents are opaque to the claims about control
flow. -/
structure MotionCtx (Img : Type) where
  avg_frame_gray : Option Img
  min_area : ℚ

/-- Model of `motion_detection_ctx`: a fresh context with no background model. -/
def motion_detection_ctx (Img : Type) (min_area : ℚ) : MotionCtx Img :=
  ⟨none, min_area⟩

/-- Model of `motion_detection_process` (motion_detector.py lines
116-163), parametric in the OpenCV image primitives, which the claims do
not inspect: `prep` is the composite resize + grayscale conversion +
Gaussian blur of lines 132-138; `accumulate` is `cv2.accumulateWeighted`
(line 143, new model from current blurred frame and old model);
`detect` is the differencing / thresholding / dilation / contour loop of
lines 145-162 producing the raw rectangle list (each box already passed
through `fixup_rect`).  Line 140 reads `if ctx['avg_frame_gray'] is None
is None:`, a chained comparison equal to `(avg is None) and (None is
None)`, i.e. simply the None test; the branch stores a float copy of the
blurred gray frame (modelled as the frame itself, the copy being
value-equal) and returns the empty list.  Otherwise the raw rectangles
are passed through `merge_rects` (line 163). -/
def motion_detection_process (Img Frame : Type) (prep : Frame → Img)
    (accumulate : Img → Img → Img) (detect : Img → Img → ℚ → List Rect)
    (ctx : MotionCtx Img) (frame : Frame) : MotionCtx Img × List Rect :=
  let gray := prep frame
  match ctx.avg_frame_gray with
  | none => (⟨some gray, ctx.min_area⟩, [])
  | some avg =>
      let avg' := accumulate gray avg
      (⟨some avg', ctx.min_area⟩, merge_rects (detect gray avg' ctx.min_area))

/-- Claim C4: on a context whose background model is uninitialized,
`motion_detection_process` seeds the model with the blurred grayscale
frame and returns the empty rectangle list, whatever the frame contains
(the result is independent of `detect` and `accumulate`). -/
theorem motion_first_frame_empty (Img Frame : Type) (prep : Frame → Img)
    (accumulate : Img → Img → Img) (detect : Img → Img → ℚ → List Rect)
    (ctx : MotionCtx Img) (frame : Frame)
    (h : ctx.avg_frame_gray = none) :
    motion_detection_process Img Frame prep accumulate detect ctx frame
      = (⟨some (prep frame), ctx.min_area⟩, []) := by
  unfold motion_detection_process
  rw [h]

theorem motion_first_frame_empty_witness :
    motion_detection_process Unit Unit (fun _ => ()) (fun _ _ => ())
        (fun _ _ _ => [Rect.mk 0 0 5 5]) (motion_detection_ctx Unit 50) ()
      = (⟨some (), 50⟩, []) :=
  motion_first_frame_empty Unit Unit (fun _ => ()) (fun _ _ => ())
    (fun _ _ _ => [Rect.mk 0 0 5 5]) (motion_detection_ctx Unit 50) () rfl

/-- The outcome of `self.output_queue.get(wait)` in pipeline.py: success
with a message, the `queue.Empty` exception (raised on timeout or when no
data is available), or any other (fatal) exception such as a broken queue
after the worker process died. -/
inductive GetErr where
  | timeout : GetErr
  | fatal : GetErr
deriving DecidableEq

/-- Model of `PipelineStep.output` (pipeline.py lines 61-65): the bare
`except:` clause turns every exception — `queue.Empty` and fatal receive
failures alike — into the same `None` return value. -/
def PipelineStep.output (Msg : Type) (recv : Except GetErr Msg) : Option Msg :=
  match recv with
  | Except.ok m => some m
  | Except.error _ => none

/-- Claim C9 (code_bug evidence): a fatal receive failure and an ordinary
timeout produce the very same result (`None`), so no caller can
distinguish worker death from "no data available" — contradicting the
claim (and spec section 7, which itself flags this conflation in the
reference behavior as a defect to fix). -/
theorem pipeline_output_conflates_errors :
    PipelineStep.output (List Rect) (Except.error GetErr.fatal)
        = PipelineStep.output (List Rect) (Except.error GetErr.timeout) ∧
      PipelineStep.output (List Rect) (Except.error GetErr.fatal) = none := by
  exact ⟨rfl, rfl⟩
